import Mathlib

/-!
Verification of the EDGAR CIK crawler (src/edgar_cik_crawler.py) against its
natural-language design specification.

The script's three logic-bearing functions are shallowly embedded here:

- `convert_to_tsv` (lines 24-69): the Record Normalizer and Writer.  Lines of
  text are `List Char`; Python `str.split()` (generic whitespace) is `splitWS`,
  `str.split(sep)` is `splitChar`, `sep.join` is `joinWith`, `str.strip` is
  `pyStrip`, `list.remove` is `List.erase`.  The per-line loop body is
  `processLine`; the record-accumulation loop is `res_lines`; the file-writing
  loop is `fileContent` (the written file is the in-order concatenation of each
  serialized record followed by a newline).

- `extract_data_from_text_files` (lines 104-164): the Best-Variant Selector.
  Network effects are oracles: `page` is the fetched-and-parsed detail page
  (`none` models a failed `make_request` at line 112 or a missing
  `tableFile` table, both of which raise in Python since they sit outside any
  try/except); `probe l` is the `Content-length` header probe of line 141,
  returning the raw header string (`none` models the caught exception, which
  line 143 turns into the Python int `0`).  The `int(content_length)` call at
  line 144 sits outside the try/except, so a header string that is present
  but not a valid integer raises out of the whole function; `pyInt` models
  that parse and `probeAll` the probing loop, which therefore can fail.
  `fetch l` is `make_request l` inside the try blocks at lines 153-158 /
  160-164 (`none` models the caught exception).  The result type
  `Except Unit (Option content)` separates an uncaught Python exception
  (`Except.error ()`) from a normal return (`Except.ok`), with
  `Except.ok none` the absence-signal `None`.

- `get_soup_contents` (lines 166-198): the Filing Lister.  A parsed `tr` row is
  a `List DocCell`; a `DocCell` carries the cell text and, when the cell holds
  an anchor with an `href` attribute, that attribute (`none` models both a
  missing `<a>` and a missing `href`, which raise inside the per-row
  try/except at lines 185-197 and so skip the row).
-/

/-- A character Python treats as whitespace for `str.split()` / `str.strip()`
(ASCII whitespace; the crawler's data is ASCII). -/
def pySpace (c : Char) : Bool :=
  c = ' ' || c = '\t' || c = '\n' || c = '\r' || c = '\x0b' || c = '\x0c'

/-- Split a character list at every character satisfying `p`, keeping empty
pieces: the common core of Python `str.split(sep)`. -/
def splitBy (p : Char → Bool) : List Char → List (List Char)
  | [] => [[]]
  | c :: cs =>
    if p c then [] :: splitBy p cs
    else
      match splitBy p cs with
      | [] => [[c]]
      | t :: ts => (c :: t) :: ts

/-- Python `str.split(sep)` for a one-character separator. -/
def splitChar (sep : Char) (l : List Char) : List (List Char) :=
  splitBy (fun c => c = sep) l

/-- Python `str.split()` with no argument: maximal runs of non-whitespace
characters, i.e. the whitespace-separated pieces with empties discarded. -/
def splitWS (l : List Char) : List (List Char) :=
  (splitBy pySpace l).filter (fun t => t ≠ [])

/-- Python `sep.join(tokens)` for a one-character separator. -/
def joinWith (sep : Char) : List (List Char) → List Char
  | [] => []
  | [t] => t
  | t :: t' :: ts => t ++ sep :: joinWith sep (t' :: ts)

/-- Python `str.strip()`: drop leading and trailing whitespace. -/
def pyStrip (l : List Char) : List Char :=
  (((l.dropWhile pySpace).reverse).dropWhile pySpace).reverse

/-- Whether `hay` starts with `needle`. -/
def startsWithL : List Char → List Char → Bool
  | [], _ => true
  | _ :: _, [] => false
  | a :: as, b :: bs => a = b && startsWithL as bs

/-- Python substring containment `needle in hay` (case-sensitive). -/
def hasSubstr (needle : List Char) : List Char → Bool
  | [] => startsWithL needle []
  | c :: cs => startsWithL needle (c :: cs) || hasSubstr needle cs

/-! ## Record Normalizer (`convert_to_tsv`, lines 31-54) -/

/-- The token-removal loop of lines 47-49: for each name token, if it occurs in
the first six items of the current token list, `list.remove` deletes the first
matching occurrence from that list. -/
def removeLoop (nameToks : List (List Char)) (allToks : List (List Char)) :
    List (List Char) :=
  nameToks.foldl (fun acc tok => if tok ∈ acc.take 6 then acc.erase tok else acc)
    allToks

/-- The body of the per-line loop of `convert_to_tsv` (lines 41-53): build the
record for one input line. -/
def processLine (line : List Char) : List (List Char) :=
  let new_line_tokens := splitWS line
  let new_line_name_tokens := ((splitChar ' ' line).take 6).filter (fun t => t ≠ [])
  let name := joinWith ' ' new_line_name_tokens
  name :: removeLoop new_line_name_tokens new_line_tokens

/-- Line 31: `lines = text.strip().split("\n")`. -/
def convertLines (text : List Char) : List (List Char) :=
  splitChar '\n' (pyStrip text)

/-- The record-accumulation loop of lines 34-54 (`res_lines.append(...)`). -/
def res_lines (text : List Char) : List (List (List Char)) :=
  (convertLines text).foldl (fun acc line => acc ++ [processLine line]) []

/-! ## Writer (`convert_to_tsv`, lines 55-68) -/

/-- Line 60: `res_line = '\t'.join(...)`. -/
def serializeRecord (r : List (List Char)) : List Char :=
  joinWith '\t' r

/-- The writing loop of lines 59-68: the file is the in-order concatenation of
each serialized record followed by `"\n"` (line 66). -/
def fileContent : List (List (List Char)) → List Char
  | [] => []
  | r :: rs => serializeRecord r ++ '\n' :: fileContent rs

/-- The whole pure content of `convert_to_tsv`: the bytes written to the
`.tsv` file for a given input text. -/
def convert_to_tsv (text : List Char) : List Char :=
  fileContent (res_lines text)

/-! ## Record Normalizer, modelled from the spec's step list (section 4.4).
These definitions follow the spec's per-line algorithm word by word, to be
compared against `processLine`, which follows the code. -/

/-- Spec step 1: tokenize by generic whitespace. -/
def specAllTokens (line : List Char) : List (List Char) :=
  splitWS line

/-- Spec step 2: tokenize by single-space only, take the first six tokens,
discard empty ones. -/
def specNameCandidates (line : List Char) : List (List Char) :=
  ((splitChar ' ' line).take 6).filter (fun t => t ≠ [])

/-- Spec step 3: the name candidates re-joined with single spaces. -/
def specName (line : List Char) : List Char :=
  joinWith ' ' (specNameCandidates line)

/-- Spec step 4, one iteration: if the token appears in the first six tokens of
the running token list, remove one matching occurrence from it. -/
def specRemoveStep (acc : List (List Char)) (tok : List Char) :
    List (List Char) :=
  if tok ∈ acc.take 6 then acc.erase tok else acc

/-- Spec step 4, the whole loop over the name candidates. -/
def specSurvivors (line : List Char) : List (List Char) :=
  (specNameCandidates line).foldl specRemoveStep (specAllTokens line)

/-- Spec step 5: the emitted record, name first, surviving tokens after. -/
def specRecord (line : List Char) : List (List Char) :=
  specName line :: specSurvivors line

/-! ## Best-Variant Selector (`extract_data_from_text_files`, lines 104-164) -/

/-- The URL base prepended at lines 130, 136, 192. -/
def secBase : List Char := "https://www.sec.gov/".toList

/-- The candidate-collection loop of lines 125-136: walk the hrefs in order;
the first href containing ".xml" is appended and the loop breaks with
`xml_found = True`; otherwise every href containing ".txt" is appended.
Returns `inner_links` and `xml_found`. -/
def collectLinks : List (List Char) → List (List Char) × Bool
  | [] => ([], false)
  | h :: t =>
    if hasSubstr (".xml".toList) h then ([secBase ++ h], true)
    else if hasSubstr (".txt".toList) h then
      ((secBase ++ h) :: (collectLinks t).1, (collectLinks t).2)
    else collectLinks t

/-- Line 145: the initial `smallest` sentinel, copied digit for digit. -/
def bigStart : Nat := 1000000000000000000000000000

/-- The minimum-selection loop of lines 145-150: strict `<`, so the first
pair attaining the minimum wins; `smallest_link` starts as the empty string. -/
def selectSmallest (info : List (List Char × Nat)) : Nat × List Char :=
  info.foldl (fun st li => if li.2 < st.1 then (li.2, li.1) else st)
    (bigStart, [])

/-- Python `int()` as applied at line 144 to a `Content-length` header value:
surrounding whitespace is stripped, then a nonempty run of decimal digits is
read; any other string (for instance duplicate headers merged to
`"500, 500"`) raises `ValueError`, modelled as `none`.  An HTTP
Content-Length is `1*DIGIT`, so sign handling is out of scope. -/
def pyInt (s : List Char) : Option Nat :=
  let t := pyStrip s
  if t = [] then none
  else if t.all (fun c => '0' ≤ c && c ≤ '9') then
    some (t.foldl (fun acc c => acc * 10 + (c.toNat - '0'.toNat)) 0)
  else none

/-- Lines 140-144 for one link: the header probe inside the try (a caught
failure leaves the Python int `0`, so `int` of it is `0`), then
`int(content_length)` outside the try: a header string that does not parse
raises out of the whole function. -/
def probeLength (probe : List Char → Option (List Char)) (l : List Char) :
    Except Unit Nat :=
  match probe l with
  | none => Except.ok 0
  | some s =>
    match pyInt s with
    | some n => Except.ok n
    | none => Except.error ()

/-- Whether the per-link probe step of lines 140-144 completes without
raising. -/
def probeOk (probe : List Char → Option (List Char)) (l : List Char) : Bool :=
  match probeLength probe l with
  | Except.ok _ => true
  | Except.error _ => false

/-- The probing loop of lines 138-144 over all collected links, building
`inner_links_info` in order and stopping at the first uncaught `int()`
failure. -/
def probeAll (probe : List Char → Option (List Char)) :
    List (List Char) → Except Unit (List (List Char × Nat))
  | [] => Except.ok []
  | l :: ls =>
    match probeLength probe l with
    | Except.error e => Except.error e
    | Except.ok n =>
      match probeAll probe ls with
      | Except.error e => Except.error e
      | Except.ok rest => Except.ok ((l, n) :: rest)

/-- The length recorded for a link whose probe step does not raise: `0` for a
caught probe failure (undeterminable content-length), otherwise the parsed
header value. -/
def probedLen (probe : List Char → Option (List Char)) (l : List Char) : Nat :=
  match probe l with
  | none => 0
  | some s => (pyInt s).getD 0

/-- `extract_data_from_text_files`, lines 104-164, over the oracles described
in the header comment.  `Except.error ()` is an uncaught Python exception
propagating to `main`; `Except.ok none` is a caught failure returned as
`None`; `Except.ok (some d)` is returned content `d`. -/
def extract_data_from_text_files (page : Option (List (List Char)))
    (probe : List Char → Option (List Char))
    (fetch : List Char → Option (List Char)) :
    Except Unit (Option (List Char)) :=
  match page with
  | none => Except.error ()
  | some hrefs =>
    let links := (collectLinks hrefs).1
    if (collectLinks hrefs).2 then
      match links with
      | [] => Except.ok none
      | l :: _ => Except.ok (fetch l)
    else
      match probeAll probe links with
      | Except.error e => Except.error e
      | Except.ok info => Except.ok (fetch (selectSmallest info).2)

/-- Whether the selector returned normally (no uncaught exception). -/
def isOkE : Except Unit (Option (List Char)) → Bool
  | Except.ok _ => true
  | Except.error _ => false

/-! ## Spec-side helpers for stating the minimum-selection property -/

/-- The minimum of a list of probed lengths, seeded with the code's sentinel. -/
def minV : List Nat → Nat
  | [] => bigStart
  | v :: vs => min v (minV vs)

/-- Index of the first occurrence of `v`. -/
def idxOfN (v : Nat) : List Nat → Nat
  | [] => 0
  | x :: xs => if x = v then 0 else idxOfN v xs + 1

/-- The probed length of each collected link, with an undeterminable
content-length treated as zero (lines 140-144). -/
def probedVals (probe : List Char → Option (List Char))
    (links : List (List Char)) : List Nat :=
  links.map (probedLen probe)

/-! ## Filing Lister (`get_soup_contents`, lines 166-198) -/

/-- One `td` cell of a parsed table row: its text, and the `href` of its first
anchor when that anchor exists and has an `href` attribute. -/
structure DocCell where
  text : List Char
  href : Option (List Char)
deriving DecidableEq

/-- One (title, link, filing-date) tuple (line 194). -/
structure FilingRef where
  title : List Char
  link : List Char
  date : List Char
deriving DecidableEq

/-- The per-row body of lines 184-197.  `row[0]` and `row[3]` are read first
(an `IndexError` on a short row skips it); then the filter-substring test on
the stripped title; then `row[1].find('a')['href']` (a missing anchor or
attribute raises and skips the row). -/
def processRow (filt : List Char) (row : List DocCell) : Option FilingRef :=
  match row with
  | c0 :: c1 :: _ :: c3 :: _ =>
    let doc_title := pyStrip c0.text
    let filing_date := pyStrip c3.text
    if hasSubstr filt doc_title then
      match c1.href with
      | some h => some ⟨doc_title, secBase ++ h, filing_date⟩
      | none => none
    else none
  | _ => none

/-- `get_soup_contents`: the rows of the `tableFile2` table, filtered and
parsed in document order. -/
def get_soup_contents (rows : List (List DocCell)) (filt : List Char) :
    List FilingRef :=
  rows.filterMap (processRow filt)

/-- The same row parse with no filter test: what "parseable row" means
(four columns present, an anchor with an href in column 1). -/
def parseRow (row : List DocCell) : Option FilingRef :=
  match row with
  | c0 :: c1 :: _ :: c3 :: _ =>
    match c1.href with
    | some h => some ⟨pyStrip c0.text, secBase ++ h, pyStrip c3.text⟩
    | none => none
  | _ => none

/-! ## Concrete inputs used by witnesses and counterexamples -/

/-- Witness line for the per-line normalizer algorithm. -/
def exLineC1 : List Char := "MELLON FINANCIAL CORP 356 100 SOLE".toList

/-- Failing input for the xml branch: a .txt href listed before the .xml href. -/
def exHrefsC2 : List (List Char) := ["doc/a.txt".toList, "doc/b.xml".toList]

/-- Detail-page hrefs for the plain-text scenario: two .txt candidates. -/
def exHrefsC3 : List (List Char) := ["doc/a.txt".toList, "doc/b.txt".toList]

/-- Content-length oracle for the scenario: header strings reporting 500
bytes and 12000 bytes. -/
def exProbeC3 : List Char → Option (List Char) := fun l =>
  if l = "https://www.sec.gov/doc/a.txt".toList then some ("500".toList)
  else if l = "https://www.sec.gov/doc/b.txt".toList then some ("12000".toList)
  else none

/-- Fetch oracle that returns the fetched URL itself as the content. -/
def exFetchC3 : List Char → Option (List Char) := fun l => some l

/-- Detail-page hrefs for the raise-dichotomy witness: one .txt candidate. -/
def exHrefsC4 : List (List Char) := ["doc/a.txt".toList]

/-- Probe oracle whose header parses: every probe reports "500". -/
def exProbeC4 : List Char → Option (List Char) := fun _ => some ("500".toList)

/-- Probe oracle whose header is present but non-numeric (e.g. duplicate
headers merged by the HTTP client), making line 144's `int()` raise. -/
def exProbeC4bad : List Char → Option (List Char) := fun _ =>
  some ("500, 500".toList)

/-- Counterexample line for the token round-trip: a tab inside the first six
single-space tokens. -/
def exLineC5 : List Char := "a\tb c".toList

/-- Witness line for the amended round-trip property (space-only whitespace). -/
def exLineC5w : List Char := "MELLON  FINANCIAL CORP 356 100 SOLE 4570 CRP".toList

/-- Filter substring used by the lister witness. -/
def exFiltC6 : List Char := "13F".toList

/-- Table rows for the lister witness: one matching row with four columns, one
row with too few columns. -/
def exRowsC6 : List (List DocCell) :=
  [[⟨" 13F-HR ".toList, none⟩, ⟨"Documents".toList, some "Archives/edgar/data/1.htm".toList⟩,
    ⟨"".toList, none⟩, ⟨"2018-02-14".toList, none⟩],
   [⟨"13F-HR".toList, none⟩]]

/-- The tuple the lister witness expects from the matching row. -/
def exRefC6 : FilingRef :=
  ⟨"13F-HR".toList, "https://www.sec.gov/Archives/edgar/data/1.htm".toList,
   "2018-02-14".toList⟩

/-- Input text for the writer witness. -/
def exTextC7 : List Char := "AAPL INC 100 200\nMSFT CORP 300 400".toList

/-- Input text for the one-record-per-line witness: contains a blank line. -/
def exTextC8 : List Char := "AAPL INC 100\n\nMSFT CORP 300".toList

/-- Line with a tab among its first six single-space tokens. -/
def exLineC9 : List Char := "a\tb c".toList

/-- Detail-page hrefs with neither a .xml nor a .txt candidate. -/
def exHrefsC10 : List (List Char) := ["doc/a.htm".toList, "doc/b.jpg".toList]

/-! ## Lemmas about the splitting and joining helpers -/

theorem splitBy_ne_nil (p : Char → Bool) (l : List Char) : splitBy p l ≠ [] := by
  induction l with
  | nil => simp [splitBy]
  | cons c cs ih =>
    simp only [splitBy]
    split
    · simp
    · cases h : splitBy p cs with
      | nil => simp
      | cons t ts => simp

theorem splitBy_cons_neg {p : Char → Bool} {d : Char} {ds t0 : List Char}
    {ts : List (List Char)} (hd : ¬ p d = true) (h : splitBy p ds = t0 :: ts) :
    splitBy p (d :: ds) = (d :: t0) :: ts := by
  simp [splitBy, hd, h]

theorem mem_of_mem_splitBy {p : Char → Bool} {l t : List Char} {c : Char}
    (ht : t ∈ splitBy p l) (hc : c ∈ t) : c ∈ l ∧ p c = false := by
  induction l generalizing t with
  | nil =>
    simp [splitBy] at ht
    subst ht
    simp at hc
  | cons d ds ih =>
    by_cases hd : p d
    · simp only [splitBy, hd, if_true] at ht
      rcases List.mem_cons.mp ht with rfl | ht
      · simp at hc
      · rcases ih ht hc with ⟨h1, h2⟩
        exact ⟨List.mem_cons_of_mem _ h1, h2⟩
    · cases hsp : splitBy p ds with
      | nil => exact absurd hsp (splitBy_ne_nil p ds)
      | cons t0 ts =>
        rw [splitBy_cons_neg hd hsp] at ht
        rcases List.mem_cons.mp ht with rfl | ht
        · rcases List.mem_cons.mp hc with rfl | hc
          · exact ⟨List.mem_cons_self _ _, by simpa using hd⟩
          · have ht0 : t0 ∈ splitBy p ds := by rw [hsp]; exact List.mem_cons_self _ _
            rcases ih ht0 hc with ⟨h1, h2⟩
            exact ⟨List.mem_cons_of_mem _ h1, h2⟩
        · have htm : t ∈ splitBy p ds := by rw [hsp]; exact List.mem_cons_of_mem _ ht
          rcases ih htm hc with ⟨h1, h2⟩
          exact ⟨List.mem_cons_of_mem _ h1, h2⟩

theorem splitBy_append_sep {p : Char → Bool} {s : Char} (hs : p s = true)
    (a b : List Char) : splitBy p (a ++ s :: b) = splitBy p a ++ splitBy p b := by
  induction a with
  | nil => simp [splitBy, hs]
  | cons c cs ih =>
    by_cases hc : p c
    · simp [splitBy, hc, ih]
    · cases h : splitBy p cs with
      | nil => exact absurd h (splitBy_ne_nil p cs)
      | cons t ts =>
        have h2 : splitBy p (cs ++ s :: b) = t :: (ts ++ splitBy p b) := by
          rw [ih, h]; rfl
        simp only [List.cons_append, splitBy_cons_neg hc h2, splitBy_cons_neg hc h]

theorem splitBy_congr {p q : Char → Bool} {l : List Char}
    (h : ∀ c ∈ l, p c = q c) : splitBy p l = splitBy q l := by
  induction l with
  | nil => rfl
  | cons c cs ih =>
    have hc : p c = q c := h c (List.mem_cons_self _ _)
    have ih' := ih (fun d hd => h d (List.mem_cons_of_mem _ hd))
    simp only [splitBy, hc, ih']

theorem splitBy_all_empty {p : Char → Bool} {l : List Char}
    (h : ∀ c ∈ l, p c = true) : ∀ t ∈ splitBy p l, t = [] := by
  induction l with
  | nil => simp [splitBy]
  | cons c cs ih =>
    intro t ht
    simp only [splitBy, h c (List.mem_cons_self _ _), if_true] at ht
    rcases List.mem_cons.mp ht with rfl | ht
    · rfl
    · exact ih (fun d hd => h d (List.mem_cons_of_mem _ hd)) t ht

theorem splitBy_no_sep {p : Char → Bool} {l : List Char}
    (h : ∀ c ∈ l, p c = false) : splitBy p l = [l] := by
  induction l with
  | nil => rfl
  | cons c cs ih =>
    have hc : p c = false := h c (List.mem_cons_self _ _)
    have ih' := ih (fun d hd => h d (List.mem_cons_of_mem _ hd))
    simp [splitBy, hc, ih']

theorem splitWS_append_sep {s : Char} (hs : pySpace s = true) (a b : List Char) :
    splitWS (a ++ s :: b) = splitWS a ++ splitWS b := by
  simp only [splitWS, splitBy_append_sep hs, List.filter_append]

theorem splitWS_single_token {t : List Char} (h0 : t ≠ [])
    (h1 : ∀ c ∈ t, pySpace c = false) : splitWS t = [t] := by
  simp [splitWS, splitBy_no_sep h1, h0]

theorem mem_splitWS {l t : List Char} (ht : t ∈ splitWS l) :
    t ≠ [] ∧ ∀ c ∈ t, c ∈ l ∧ pySpace c = false := by
  rcases List.mem_filter.mp ht with ⟨hmem, hne⟩
  refine ⟨by simpa using hne, fun c hc => mem_of_mem_splitBy hmem hc⟩

theorem splitWS_all_space {l : List Char} (h : ∀ c ∈ l, pySpace c = true) :
    splitWS l = [] := by
  simp only [splitWS]
  refine List.filter_eq_nil_iff.mpr fun t ht => ?_
  simp [splitBy_all_empty h t ht]

theorem splitWS_joinWith {s : Char} (hs : pySpace s = true)
    (toks : List (List Char)) :
    splitWS (joinWith s toks) = (toks.map splitWS).flatten := by
  induction toks with
  | nil => simp [joinWith, splitWS, splitBy]
  | cons t ts ih =>
    cases ts with
    | nil => simp [joinWith]
    | cons t' ts' =>
      simp only [joinWith, splitWS_append_sep hs, List.map_cons, List.flatten_cons]
      rw [ih]
      simp [List.map_cons, List.flatten_cons]

theorem mem_joinWith {s c : Char} {toks : List (List Char)}
    (h : c ∈ joinWith s toks) : c = s ∨ ∃ t ∈ toks, c ∈ t := by
  induction toks with
  | nil => simp [joinWith] at h
  | cons t ts ih =>
    cases ts with
    | nil =>
      simp only [joinWith] at h
      exact Or.inr ⟨t, List.mem_cons_self _ _, h⟩
    | cons t' ts' =>
      simp only [joinWith] at h
      rcases List.mem_append.mp h with h | h
      · exact Or.inr ⟨t, List.mem_cons_self _ _, h⟩
      · rcases List.mem_cons.mp h with rfl | h
        · exact Or.inl rfl
        · rcases ih h with h | ⟨u, hu, hcu⟩
          · exact Or.inl h
          · exact Or.inr ⟨u, List.mem_cons_of_mem _ hu, hcu⟩

theorem hasSubstr_nil (hay : List Char) : hasSubstr [] hay = true := by
  cases hay <;> simp [hasSubstr, startsWithL]

theorem foldl_append_map {α β : Type} (f : α → β) :
    ∀ (l : List α) (acc : List β),
      l.foldl (fun a x => a ++ [f x]) acc = acc ++ l.map f := by
  intro l
  induction l with
  | nil => simp
  | cons x xs ih => intro acc; simp [ih]

theorem res_lines_eq_map (text : List Char) :
    res_lines text = (convertLines text).map processLine :=
  by simpa using foldl_append_map processLine (convertLines text) []

theorem getD_map_of_lt {α β : Type} (f : α → β) :
    ∀ (l : List α) (i : Nat), i < l.length →
      ∀ (d1 : β) (d2 : α), (l.map f).getD i d1 = f (l.getD i d2) := by
  intro l
  induction l with
  | nil => intro i h; simp at h
  | cons x xs ih =>
    intro i h d1 d2
    cases i with
    | zero => rfl
    | succ j => exact ih j (by simpa using h) d1 d2

theorem filter_take_prefix {α : Type} (p : α → Bool) (l : List α) (n : Nat) :
    (l.take n).filter p = (l.filter p).take ((l.take n).filter p).length := by
  calc (l.take n).filter p
      = ((l.take n).filter p ++ (l.drop n).filter p).take ((l.take n).filter p).length := by
        rw [List.take_left]
    _ = (l.filter p).take ((l.take n).filter p).length := by
        rw [← List.filter_append, List.take_append_drop]

theorem removeLoop_eq_foldl (C T : List (List Char)) :
    removeLoop C T = C.foldl specRemoveStep T := rfl

theorem processLine_spec (line : List Char) :
    processLine line = specRecord line := rfl

theorem foldl_remove_take_eq_drop :
    ∀ (C T : List (List Char)), C = T.take C.length →
      C.foldl specRemoveStep T = T.drop C.length := by
  intro C
  induction C with
  | nil => intro T _; simp
  | cons c C' ih =>
    intro T h
    cases T with
    | nil => simp at h
    | cons t T' =>
      rw [List.length_cons, List.take_succ_cons] at h
      obtain ⟨rfl, hC'⟩ : c = t ∧ C' = T'.take C'.length := by
        constructor <;> [exact (List.cons.injEq _ _ _ _ ▸ h).1; exact (List.cons.injEq _ _ _ _ ▸ h).2]
      have hstep : specRemoveStep (c :: T') c = T' := by
        have hmem : c ∈ (c :: T').take 6 := by
          rw [show (6 : Nat) = 5 + 1 from rfl, List.take_succ_cons]
          exact List.mem_cons_self _ _
        simp [specRemoveStep, hmem]
      simp only [List.foldl_cons, hstep, List.length_cons, List.drop_succ_cons]
      exact ih T' hC'

theorem foldl_remove_sublist :
    ∀ (C T : List (List Char)), List.Sublist (C.foldl specRemoveStep T) T := by
  intro C
  induction C with
  | nil => intro T; exact List.Sublist.refl T
  | cons c C' ih =>
    intro T
    have hstep : List.Sublist (specRemoveStep T c) T := by
      unfold specRemoveStep
      split
      · exact List.erase_sublist _ _
      · exact List.Sublist.refl T
    exact List.Sublist.trans (ih (specRemoveStep T c)) hstep

/-! ## Lemmas about the minimum-selection loop -/

theorem minV_le {vals : List Nat} : ∀ v ∈ vals, minV vals ≤ v := by
  induction vals with
  | nil => simp
  | cons x xs ih =>
    intro v hv
    rcases List.mem_cons.mp hv with rfl | hv
    · exact min_le_left _ _
    · exact le_trans (min_le_right _ _) (ih v hv)

theorem minV_mem {vals : List Nat} (hne : vals ≠ [])
    (hlt : ∀ v ∈ vals, v < bigStart) : minV vals ∈ vals := by
  induction vals with
  | nil => exact absurd rfl hne
  | cons x xs ih =>
    cases xs with
    | nil =>
      have hx : x < bigStart := hlt x (List.mem_cons_self _ _)
      simp [minV, Nat.min_eq_left (le_of_lt hx)]
    | cons y ys =>
      have hcons : minV (x :: y :: ys) = min x (minV (y :: ys)) := rfl
      rcases le_total x (minV (y :: ys)) with h | h
      · rw [hcons, Nat.min_eq_left h]
        exact List.mem_cons_self _ _
      · rw [hcons, Nat.min_eq_right h]
        exact List.mem_cons_of_mem _
          (ih (by simp) (fun v hv => hlt v (List.mem_cons_of_mem _ hv)))

theorem idxOfN_lt_length {vals : List Nat} {v : Nat} (h : v ∈ vals) :
    idxOfN v vals < vals.length := by
  induction vals with
  | nil => simp at h
  | cons x xs ih =>
    by_cases hx : x = v
    · simp [idxOfN, hx]
    · rcases List.mem_cons.mp h with rfl | h
      · exact absurd rfl hx
      · simpa [idxOfN, hx] using ih h

theorem idxOfN_before {vals : List Nat} {v : Nat} :
    ∀ j, j < idxOfN v vals → vals.getD j 0 ≠ v := by
  induction vals with
  | nil => simp [idxOfN]
  | cons x xs ih =>
    intro j hj
    by_cases hx : x = v
    · simp [idxOfN, hx] at hj
    · cases j with
      | zero => simpa using hx
      | succ k =>
        simp only [idxOfN, hx, if_false] at hj
        exact ih k (by omega)

theorem getD_mem_of_lt {α : Type} {l : List α} {i : Nat} (h : i < l.length)
    (d : α) : l.getD i d ∈ l := by
  induction l generalizing i with
  | nil => simp at h
  | cons x xs ih =>
    cases i with
    | zero => exact List.mem_cons_self _ _
    | succ j => exact List.mem_cons_of_mem _ (ih (by simpa using h))

theorem getD_map_pair {links : List (List Char)} {g : List Char → Nat} :
    ∀ {k : Nat}, k < links.length →
      (links.map (fun l => (l, g l))).getD k ([], 0)
        = (links.getD k [], g (links.getD k [])) := by
  induction links with
  | nil => intro k h; simp at h
  | cons x xs ih =>
    intro k h
    cases k with
    | zero => rfl
    | succ j => exact ih (by simpa using h)

theorem selectLoop_spec :
    ∀ (info : List (List Char × Nat)) (m : Nat) (a : List Char),
      m ≤ bigStart → (∀ q ∈ info, q.2 < bigStart) →
      info.foldl (fun st li => if li.2 < st.1 then (li.2, li.1) else st) (m, a)
        = if minV (info.map Prod.snd) < m
          then (minV (info.map Prod.snd),
                (info.getD (idxOfN (minV (info.map Prod.snd))
                  (info.map Prod.snd)) ([], 0)).1)
          else (m, a) := by
  intro info
  induction info with
  | nil =>
    intro m a hm _
    simp only [List.foldl_nil, List.map_nil, minV]
    rw [if_neg (Nat.not_lt.mpr hm)]
  | cons q rest ih =>
    intro m a hm hv
    obtain ⟨l, v⟩ := q
    have hvlt : v < bigStart := hv (l, v) (List.mem_cons_self _ _)
    have hvrest : ∀ q ∈ rest, q.2 < bigStart :=
      fun q hq => hv q (List.mem_cons_of_mem _ hq)
    simp only [List.foldl_cons, List.map_cons]
    have hcons : minV (v :: rest.map Prod.snd) = min v (minV (rest.map Prod.snd)) :=
      rfl
    by_cases hvm : v < m
    · rw [if_pos hvm]
      rw [ih v l (le_of_lt hvlt) hvrest]
      by_cases hM : minV (rest.map Prod.snd) < v
      · have hmin : min v (minV (rest.map Prod.snd)) = minV (rest.map Prod.snd) :=
          Nat.min_eq_right (le_of_lt hM)
        rw [if_pos hM, hcons, hmin, if_pos (lt_trans hM hvm)]
        rw [show idxOfN (minV (rest.map Prod.snd)) (v :: rest.map Prod.snd)
            = idxOfN (minV (rest.map Prod.snd)) (rest.map Prod.snd) + 1 by
          simp [idxOfN, Nat.ne_of_gt hM]]
        rfl
      · have hle : v ≤ minV (rest.map Prod.snd) := Nat.not_lt.mp hM
        have hmin : min v (minV (rest.map Prod.snd)) = v := Nat.min_eq_left hle
        rw [if_neg hM, hcons, hmin, if_pos hvm]
        rw [show idxOfN v (v :: rest.map Prod.snd) = 0 by simp [idxOfN]]
        rfl
    · rw [if_neg hvm]
      rw [ih m a hm hvrest]
      have hmv : m ≤ v := Nat.not_lt.mp hvm
      by_cases hM : minV (rest.map Prod.snd) < m
      · have hMv : minV (rest.map Prod.snd) < v := lt_of_lt_of_le hM hmv
        have hmin : min v (minV (rest.map Prod.snd)) = minV (rest.map Prod.snd) :=
          Nat.min_eq_right (le_of_lt hMv)
        rw [if_pos hM, hcons, hmin, if_pos hM]
        rw [show idxOfN (minV (rest.map Prod.snd)) (v :: rest.map Prod.snd)
            = idxOfN (minV (rest.map Prod.snd)) (rest.map Prod.snd) + 1 by
          simp [idxOfN, Nat.ne_of_gt hMv]]
        rfl
      · have hnot : ¬ min v (minV (rest.map Prod.snd)) < m :=
          Nat.not_lt.mpr (le_min hmv (Nat.not_lt.mp hM))
        rw [if_neg hM, hcons, if_neg hnot]

theorem selectSmallest_spec (links : List (List Char)) (g : List Char → Nat)
    (hne : links ≠ []) (hv : ∀ l ∈ links, g l < bigStart) :
    (selectSmallest (links.map (fun l => (l, g l)))).2
      = links.getD (idxOfN (minV (links.map g)) (links.map g)) [] := by
  have hmap : (links.map (fun l => (l, g l))).map Prod.snd = links.map g := by
    simp [List.map_map, Function.comp]
  have hvals_ne : links.map g ≠ [] := by
    simpa using hne
  have hvals_lt : ∀ v ∈ links.map g, v < bigStart := by
    intro v hvv
    rcases List.mem_map.mp hvv with ⟨l, hl, rfl⟩
    exact hv l hl
  have hmin_lt : minV (links.map g) < bigStart :=
    hvals_lt _ (minV_mem hvals_ne hvals_lt)
  have hidx : idxOfN (minV (links.map g)) (links.map g) < links.length := by
    have := idxOfN_lt_length (minV_mem hvals_ne hvals_lt)
    simpa using this
  rw [selectSmallest, selectLoop_spec _ bigStart [] (le_refl _)
    (by intro q hq; rcases List.mem_map.mp hq with ⟨l, hl, rfl⟩; exact hv l hl)]
  rw [hmap, if_pos hmin_lt, getD_map_pair hidx]

theorem probeLength_of_ok {probe : List Char → Option (List Char)}
    {l : List Char} (h : probeOk probe l = true) :
    probeLength probe l = Except.ok (probedLen probe l) := by
  cases hp : probe l with
  | none => simp [probeLength, probedLen, hp]
  | some s =>
    cases hi : pyInt s with
    | none =>
      exfalso
      rw [probeOk] at h
      simp [probeLength, hp, hi] at h
    | some n =>
      simp [probeLength, probedLen, hp, hi]

theorem probeAll_of_ok {probe : List Char → Option (List Char)} :
    ∀ {links : List (List Char)}, (∀ l ∈ links, probeOk probe l = true) →
      probeAll probe links
        = Except.ok (links.map (fun l => (l, probedLen probe l))) := by
  intro links
  induction links with
  | nil => intro _; rfl
  | cons l ls ih =>
    intro h
    simp only [probeAll, probeLength_of_ok (h l (List.mem_cons_self _ _)),
      ih (fun x hx => h x (List.mem_cons_of_mem _ hx)), List.map_cons]

theorem probeAll_ok_iff (probe : List Char → Option (List Char)) :
    ∀ (links : List (List Char)),
      (∃ info, probeAll probe links = Except.ok info)
        ↔ ∀ l ∈ links, probeOk probe l = true := by
  intro links
  induction links with
  | nil =>
    constructor
    · intro _
      simp
    · intro _
      exact ⟨[], rfl⟩
  | cons l ls ih =>
    constructor
    · rintro ⟨info, hinfo⟩
      intro x hx
      simp only [probeAll] at hinfo
      cases hpl : probeLength probe l with
      | error e =>
        simp only [hpl] at hinfo
        exact absurd hinfo (by simp)
      | ok n =>
        simp only [hpl] at hinfo
        cases hpa : probeAll probe ls with
        | error e =>
          simp only [hpa] at hinfo
          exact absurd hinfo (by simp)
        | ok rest =>
          rcases List.mem_cons.mp hx with rfl | hx
          · simp [probeOk, hpl]
          · exact (ih.mp ⟨rest, hpa⟩) x hx
    · intro h
      obtain ⟨rest, hrest⟩ := ih.mpr (fun x hx => h x (List.mem_cons_of_mem _ hx))
      refine ⟨(l, probedLen probe l) :: rest, ?_⟩
      simp only [probeAll, probeLength_of_ok (h l (List.mem_cons_self _ _)),
        hrest]

theorem collectLinks_none {hrefs : List (List Char)}
    (h : ∀ x ∈ hrefs, hasSubstr (".xml".toList) x = false ∧
      hasSubstr (".txt".toList) x = false) :
    collectLinks hrefs = ([], false) := by
  induction hrefs with
  | nil => rfl
  | cons x t ih =>
    obtain ⟨h1, h2⟩ := h x (List.mem_cons_self _ _)
    rw [show collectLinks (x :: t)
        = if hasSubstr (".xml".toList) x then ([secBase ++ x], true)
          else if hasSubstr (".txt".toList) x then
            ((secBase ++ x) :: (collectLinks t).1, (collectLinks t).2)
          else collectLinks t from rfl,
      h1, h2]
    simp [ih (fun y hy => h y (List.mem_cons_of_mem _ hy))]

/-! ## Lemmas about the writer -/

theorem splitChar_fileContent :
    ∀ (records : List (List (List Char))),
      (∀ r ∈ records, '\n' ∉ serializeRecord r) →
      splitChar '\n' (fileContent records) = records.map serializeRecord ++ [[]] := by
  intro records
  induction records with
  | nil => intro _; rfl
  | cons r rs ih =>
    intro h
    have hr : '\n' ∉ serializeRecord r := h r (List.mem_cons_self _ _)
    have hfree : ∀ c ∈ serializeRecord r, ((fun c => c = '\n') c : Bool) = false := by
      intro c hc
      simp only [decide_eq_false_iff_not]
      exact fun h' => hr (h' ▸ hc)
    show splitBy (fun c => c = '\n') (serializeRecord r ++ '\n' :: fileContent rs)
      = _
    rw [splitBy_append_sep (by simp) _ _, splitBy_no_sep hfree]
    rw [show splitBy (fun c => c = '\n') (fileContent rs)
        = splitChar '\n' (fileContent rs) from rfl,
      ih (fun x hx => h x (List.mem_cons_of_mem _ hx))]
    simp

theorem no_newline_in_line {text line : List Char}
    (h : line ∈ convertLines text) : '\n' ∉ line := by
  intro hc
  have hmem : line ∈ splitBy (fun c => c = '\n') (pyStrip text) := by
    simpa [convertLines, splitChar] using h
  have := (mem_of_mem_splitBy hmem hc).2
  simp at this

theorem no_newline_processLine {line : List Char} (hline : '\n' ∉ line) :
    '\n' ∉ serializeRecord (processLine line) := by
  intro hmem
  rw [processLine_spec] at hmem
  rcases mem_joinWith hmem with h | ⟨f, hf, hcf⟩
  · exact absurd h (by decide)
  · rcases List.mem_cons.mp hf with rfl | hf
    · rcases mem_joinWith hcf with h | ⟨t, ht, hct⟩
      · exact absurd h (by decide)
      · have ht6 : t ∈ (splitChar ' ' line).take 6 := List.mem_of_mem_filter ht
        have ht' : t ∈ splitBy (fun c => c = ' ') line := by
          simpa [splitChar] using (List.take_subset _ _) ht6
        exact hline ((mem_of_mem_splitBy ht' hct).1)
    · have hsub := foldl_remove_sublist (specNameCandidates line) (specAllTokens line)
      have hf' : f ∈ splitWS line := hsub.subset hf
      exact hline (((mem_splitWS hf').2 '\n' hcf).1)

/-! ## Remaining helper lemmas -/

theorem flatten_map_single {α : Type} :
    ∀ (l : List (List α)), (l.map (fun t => [t])).flatten = l := by
  intro l
  induction l with
  | nil => rfl
  | cons x xs ih => simp [ih]

theorem processRow_some_title {filt : List Char} {row : List DocCell}
    {ref : FilingRef} (hp : processRow filt row = some ref) :
    hasSubstr filt ref.title = true := by
  match row with
  | [] => simp [processRow] at hp
  | [c0] => simp [processRow] at hp
  | [c0, c1] => simp [processRow] at hp
  | [c0, c1, c2] => simp [processRow] at hp
  | c0 :: c1 :: c2 :: c3 :: rest =>
    simp only [processRow] at hp
    by_cases hf : hasSubstr filt (pyStrip c0.text) = true
    · rw [if_pos hf] at hp
      cases hh : c1.href with
      | none => rw [hh] at hp; exact absurd hp (by simp)
      | some h2 =>
        rw [hh] at hp
        have := Option.some.inj hp
        rw [← this]
        exact hf
    · rw [if_neg hf] at hp
      exact absurd hp (by simp)

theorem processRow_nil_filt (row : List DocCell) :
    processRow [] row = parseRow row := by
  match row with
  | [] => rfl
  | [c0] => rfl
  | [c0, c1] => rfl
  | [c0, c1, c2] => rfl
  | c0 :: c1 :: c2 :: c3 :: rest =>
    simp only [processRow, parseRow, hasSubstr_nil, if_true]

theorem processRow_short {filt : List Char} (row : List DocCell)
    (h : row.length < 4) : processRow filt row = none := by
  match row with
  | [] => rfl
  | [c0] => rfl
  | [c0, c1] => rfl
  | [c0, c1, c2] => rfl
  | c0 :: c1 :: c2 :: c3 :: rest => simp only [List.length_cons] at h; omega

/-! ## Claim theorems -/

/-- C1: for every input line, the Record Normalizer follows the spec's
per-line algorithm: `processLine` (the code) equals the record assembled from
the spec's steps (name candidates = first six single-space tokens with empties
discarded; name = those tokens re-joined by single spaces in order); each
removal step deletes exactly one occurrence of a name token that appears in
the first six tokens of the running token list (one fewer occurrence of the
token, one fewer element, the rest kept in order), leaves the list untouched
otherwise; and the emitted record is the name followed by the surviving
whitespace tokens, which form an in-order sublist of the original tokens. -/
theorem record_normalizer_per_line (line : List Char) :
    processLine line = specName line :: specSurvivors line ∧
    (∀ (acc : List (List Char)) (tok : List Char), tok ∈ acc.take 6 →
      (specRemoveStep acc tok).count tok + 1 = acc.count tok ∧
      (specRemoveStep acc tok).length + 1 = acc.length ∧
      List.Sublist (specRemoveStep acc tok) acc) ∧
    (∀ (acc : List (List Char)) (tok : List Char), tok ∉ acc.take 6 →
      specRemoveStep acc tok = acc) ∧
    List.Sublist (specSurvivors line) (specAllTokens line) := by
  refine ⟨processLine_spec line, ?_, ?_, foldl_remove_sublist _ _⟩
  · intro acc tok hmem6
    have hmem : tok ∈ acc := (List.take_subset _ _) hmem6
    have hpos : 0 < acc.count tok := List.count_pos_iff.mpr hmem
    have hlen : 0 < acc.length := List.length_pos_of_mem hmem
    refine ⟨?_, ?_, ?_⟩
    · rw [specRemoveStep, if_pos hmem6, List.count_erase_self]
      omega
    · rw [specRemoveStep, if_pos hmem6, List.length_erase_of_mem hmem]
      omega
    · rw [specRemoveStep, if_pos hmem6]
      exact List.erase_sublist _ _
  · intro acc tok hne
    rw [specRemoveStep, if_neg hne]

/-- C1 witness: the per-line theorem applied to a concrete line, with the
removal-step facts instantiated at concrete token lists. -/
theorem record_normalizer_per_line_witness :
    processLine exLineC1 = specName exLineC1 :: specSurvivors exLineC1 ∧
    (specRemoveStep ["MELLON".toList, "356".toList]
        ("MELLON".toList)).count ("MELLON".toList) + 1
      = (["MELLON".toList, "356".toList] : List (List Char)).count
          ("MELLON".toList) ∧
    specRemoveStep ["MELLON".toList] ("CORP".toList) = ["MELLON".toList] :=
  ⟨(record_normalizer_per_line exLineC1).1,
   ((record_normalizer_per_line exLineC1).2.1 _ _ (by decide)).1,
   (record_normalizer_per_line exLineC1).2.2.1 _ _ (by decide)⟩

/-- C2: the code, evaluated at a candidate list where a ".txt" href precedes
the ".xml" href, finds the structured-markup candidate (`xml_found` is true)
and performs no content-length comparison, but then fetches `inner_links[0]`,
which is the earlier plain-text link, not the structured-markup link; this
contradicts the code's own comment at line 128 ("If we find a XML file then
use that instead of a text file") and the spec's "first such link wins". -/
theorem selector_xml_divergence :
    (collectLinks exHrefsC2).2 = true ∧
    extract_data_from_text_files (some exHrefsC2) (fun _ => none)
        (fun l => some l)
      = Except.ok (some ("https://www.sec.gov/doc/a.txt".toList)) ∧
    hasSubstr (".xml".toList) ("https://www.sec.gov/doc/a.txt".toList)
      = false := by
  refine ⟨by decide, rfl, by decide⟩

/-- C9: on the line `"a\tb c"`, whose first six single-space tokens include a
tab, the emitted record's field 0 (the name) contains a tab character, so the
tab-serialized output line splits into more tab-separated columns than the
record has fields. -/
theorem name_field_tab_columns :
    '\t' ∈ (processLine exLineC9).getD 0 [] ∧
    (processLine exLineC9).length
      < (splitChar '\t' (serializeRecord (processLine exLineC9))).length := by
  decide

/-- C3: for every detail page with no structured-markup candidate (so
`xml_found` stays false), a nonempty candidate list, each probe step
completing without raising (every reported header parses as an integer --
otherwise line 144 raises, see the C4 theorems), and probed lengths below the
code's sentinel, the selector fetches and returns the body of the candidate
at the first index attaining the minimum probed length: the returned value is
the fetch of the link at `idxOfN (minV vals) vals`, that value is a lower
bound of all probed lengths, the index is in range, and every earlier
candidate has a strictly different (hence larger) probed length; an
undeterminable content-length (`probe l = none`, the caught probe failure)
contributes `0`, biasing selection toward it. -/
theorem selector_no_xml (hrefs : List (List Char))
    (probe : List Char → Option (List Char))
    (fetch : List Char → Option (List Char))
    (hxf : (collectLinks hrefs).2 = false)
    (hne : (collectLinks hrefs).1 ≠ [])
    (hok : ∀ l ∈ (collectLinks hrefs).1, probeOk probe l = true)
    (hsm : ∀ l ∈ (collectLinks hrefs).1, probedLen probe l < bigStart) :
    extract_data_from_text_files (some hrefs) probe fetch
      = Except.ok (fetch ((collectLinks hrefs).1.getD
          (idxOfN (minV (probedVals probe (collectLinks hrefs).1))
            (probedVals probe (collectLinks hrefs).1)) [])) ∧
    (∀ v ∈ probedVals probe (collectLinks hrefs).1,
      minV (probedVals probe (collectLinks hrefs).1) ≤ v) ∧
    idxOfN (minV (probedVals probe (collectLinks hrefs).1))
        (probedVals probe (collectLinks hrefs).1)
      < (collectLinks hrefs).1.length ∧
    (∀ j, j < idxOfN (minV (probedVals probe (collectLinks hrefs).1))
        (probedVals probe (collectLinks hrefs).1) →
      (probedVals probe (collectLinks hrefs).1).getD j 0
        ≠ minV (probedVals probe (collectLinks hrefs).1)) ∧
    (∀ l, probe l = none → probedLen probe l = 0) := by
  have hvals_ne : probedVals probe (collectLinks hrefs).1 ≠ [] := by
    simpa [probedVals] using hne
  have hvals_lt : ∀ v ∈ probedVals probe (collectLinks hrefs).1, v < bigStart := by
    intro v hv
    rcases List.mem_map.mp hv with ⟨l, hl, rfl⟩
    exact hsm l hl
  refine ⟨?_, fun v hv => minV_le v hv, ?_, fun j hj => idxOfN_before j hj,
    fun l hl => by simp [probedLen, hl]⟩
  · have hbody : extract_data_from_text_files (some hrefs) probe fetch
        = Except.ok (fetch (selectSmallest ((collectLinks hrefs).1.map
            (fun l => (l, probedLen probe l)))).2) := by
      simp only [extract_data_from_text_files, hxf, Bool.false_eq_true,
        if_false, probeAll_of_ok hok]
    rw [hbody, selectSmallest_spec _ (probedLen probe) hne hsm]
    rfl
  · have := idxOfN_lt_length (minV_mem hvals_ne hvals_lt)
    simpa [probedVals] using this

/-- C3 witness: the spec's scenario; two plain-text candidates whose headers
report 500 and 12000 bytes, and the 500-byte candidate's content is fetched. -/
theorem selector_no_xml_witness :
    extract_data_from_text_files (some exHrefsC3) exProbeC3 exFetchC3
      = Except.ok (some ("https://www.sec.gov/doc/a.txt".toList)) := by
  have h := (selector_no_xml exHrefsC3 exProbeC3 exFetchC3 (by decide)
    (by decide) (by decide) (by decide)).1
  exact h.trans (by rfl)

/-- C4 counterexample: when the fetch or parse of the detail page itself
fails, or the page has no `tableFile` table (lines 112-121, outside every
try/except), `extract_data_from_text_files` raises to its caller instead of
returning the absence-signal, refuting the claim that no input makes the
selector raise. -/
theorem selector_detail_failure_raises :
    extract_data_from_text_files none (fun _ => none) (fun _ => none)
      = Except.error () := rfl

/-- C4 amended: once the detail page has been fetched, parsed, and its
document table found, the selector raises on exactly one remaining path:
no xml candidate was taken and some collected candidate's `Content-length`
header is present but not a valid integer, so the `int()` at line 144
(outside the try/except, which covers only line 141) raises.  Every other
late failure -- caught probe exceptions (treated as zero), empty candidate
lists, and the body fetches inside the try blocks -- degrades to a normal
return, possibly carrying the absence-signal `none`. -/
theorem selector_post_table_raise_iff (hrefs : List (List Char))
    (probe : List Char → Option (List Char))
    (fetch : List Char → Option (List Char)) :
    isOkE (extract_data_from_text_files (some hrefs) probe fetch) = true
      ↔ ((collectLinks hrefs).2 = true
        ∨ ∀ l ∈ (collectLinks hrefs).1, probeOk probe l = true) := by
  by_cases hx : (collectLinks hrefs).2 = true
  · constructor
    · intro _
      exact Or.inl hx
    · intro _
      simp only [extract_data_from_text_files, hx, if_true]
      cases (collectLinks hrefs).1 with
      | nil => rfl
      | cons l ls => rfl
  · have hbody : extract_data_from_text_files (some hrefs) probe fetch
        = match probeAll probe (collectLinks hrefs).1 with
          | Except.error e => Except.error e
          | Except.ok info => Except.ok (fetch (selectSmallest info).2) := by
      simp only [extract_data_from_text_files]
      rw [if_neg hx]
    constructor
    · intro hok
      refine Or.inr ?_
      rw [hbody] at hok
      cases hpa : probeAll probe (collectLinks hrefs).1 with
      | error e =>
        rw [hpa] at hok
        simp [isOkE] at hok
      | ok info => exact (probeAll_ok_iff probe _).mp ⟨info, hpa⟩
    · intro h
      rcases h with h | hall
      · exact absurd h hx
      · rw [hbody, probeAll_of_ok hall]
        rfl

/-- C4 amended witness: the dichotomy at concrete inputs; with every header
parseable the selector returns normally, and with a present-but-non-numeric
header it raises. -/
theorem selector_post_table_raise_iff_witness :
    isOkE (extract_data_from_text_files (some exHrefsC4) exProbeC4
      (fun _ => none)) = true ∧
    isOkE (extract_data_from_text_files (some exHrefsC4) exProbeC4bad
      (fun _ => none)) = false := by
  constructor
  · exact (selector_post_table_raise_iff exHrefsC4 exProbeC4
      (fun _ => none)).mpr (Or.inr (by decide))
  · have h := selector_post_table_raise_iff exHrefsC4 exProbeC4bad
      (fun _ => none)
    have hno : ¬ ((collectLinks exHrefsC4).2 = true
        ∨ ∀ l ∈ (collectLinks exHrefsC4).1, probeOk exProbeC4bad l = true) := by
      decide
    cases hb : isOkE (extract_data_from_text_files (some exHrefsC4)
        exProbeC4bad (fun _ => none)) with
    | false => rfl
    | true => exact absurd (h.mp hb) hno

/-- C10: when the document table offers neither a ".xml" nor a ".txt"
candidate, `inner_links` stays empty, the minimum-selection loop falls
through to the initial empty link string, the fetch of that empty link fails
(as `requests.get('')` always does), and the caught exception yields the
absence-signal `None` rather than a raised error. -/
theorem selector_no_candidates (hrefs : List (List Char))
    (probe : List Char → Option (List Char))
    (fetch : List Char → Option (List Char))
    (hno : ∀ x ∈ hrefs, hasSubstr (".xml".toList) x = false ∧
      hasSubstr (".txt".toList) x = false)
    (hfetch : fetch [] = none) :
    extract_data_from_text_files (some hrefs) probe fetch = Except.ok none := by
  have hcl := collectLinks_none hno
  simp [extract_data_from_text_files, hcl, probeAll, selectSmallest, hfetch]

/-- C10 witness: a page offering only a .htm and a .jpg href returns the
absence-signal. -/
theorem selector_no_candidates_witness :
    extract_data_from_text_files (some exHrefsC10) (fun _ => none)
      (fun _ => none) = Except.ok none :=
  selector_no_candidates exHrefsC10 (fun _ => none) (fun _ => none)
    (by decide) rfl

/-- C5 counterexample: on the line `"a\tb c"` the re-joined record re-splits
to the token multiset `{a, b, c, a, b}`, not the original `{a, b, c}`: the
single-space token `"a\tb"` is never found in the whitespace token list (so
nothing is removed for it) yet its characters reappear inside the name, a
failure not covered by the claim's duplicate-removal caveat. -/
theorem token_roundtrip_counterexample :
    ¬ List.Perm (splitWS (serializeRecord (processLine exLineC5)))
      (splitWS exLineC5) := by
  decide

/-- C5 amended: for every input line whose whitespace characters are all
plain spaces (no tabs or other whitespace inside the line), re-joining the
emitted record (field 0 by its internal single spaces, the fields by tabs)
and re-splitting by generic whitespace recovers exactly the original line's
whitespace tokens, in particular the same multiset; a tab among the first six
single-space tokens can instead duplicate tokens, as the counterexample
shows. -/
theorem token_roundtrip_space_only (line : List Char)
    (h : ∀ c ∈ line, pySpace c = true → c = ' ') :
    List.Perm (splitWS (serializeRecord (processLine line))) (splitWS line) := by
  have hpoint : ∀ c ∈ line, pySpace c = ((c = ' ') : Bool) := by
    intro c hc
    by_cases hs : c = ' '
    · subst hs; decide
    · cases hps : pySpace c with
      | false => simp [hs]
      | true => exact absurd (h c hc hps) hs
  have hS : splitChar ' ' line = splitBy pySpace line :=
    (splitBy_congr hpoint).symm
  have hC : specNameCandidates line
      = (splitWS line).take (specNameCandidates line).length := by
    show ((splitChar ' ' line).take 6).filter (fun t => t ≠ [])
      = (splitWS line).take
        ((((splitChar ' ' line).take 6).filter (fun t => t ≠ [])).length)
    rw [hS]
    exact filter_take_prefix _ _ 6
  have hdrop : specSurvivors line
      = (splitWS line).drop (specNameCandidates line).length :=
    foldl_remove_take_eq_drop _ _ hC
  have hsingle : ∀ t ∈ splitWS line, splitWS t = [t] := by
    intro t ht
    rcases mem_splitWS ht with ⟨h1, h2⟩
    exact splitWS_single_token h1 (fun c hc => (h2 c hc).2)
  have hcand_mem : ∀ t ∈ specNameCandidates line, t ∈ splitWS line := by
    intro t ht
    rw [hC] at ht
    exact (List.take_subset _ _) ht
  have hsurv_mem : ∀ t ∈ specSurvivors line, t ∈ splitWS line := by
    intro t ht
    rw [hdrop] at ht
    exact (List.drop_subset _ _) ht
  have hname : splitWS (specName line) = specNameCandidates line := by
    rw [specName, splitWS_joinWith (by decide)]
    rw [List.map_congr_left (fun t ht => hsingle t (hcand_mem t ht))]
    exact flatten_map_single _
  have hmain : splitWS (serializeRecord (processLine line)) = splitWS line := by
    rw [processLine_spec]
    show splitWS (joinWith '\t' (specName line :: specSurvivors line)) = _
    rw [splitWS_joinWith (by decide), List.map_cons, List.flatten_cons, hname]
    rw [List.map_congr_left (fun t ht => hsingle t (hsurv_mem t ht)),
      flatten_map_single _]
    calc specNameCandidates line ++ specSurvivors line
        = (splitWS line).take (specNameCandidates line).length
            ++ (splitWS line).drop (specNameCandidates line).length := by
          rw [← hC, ← hdrop]
      _ = splitWS line := List.take_append_drop _ _
  rw [hmain]

/-- C5 witness: the round-trip equality on a concrete all-space line. -/
theorem token_roundtrip_space_only_witness :
    List.Perm (splitWS (serializeRecord (processLine exLineC5w)))
      (splitWS exLineC5w) :=
  token_roundtrip_space_only exLineC5w (by decide)

/-- C6: for every index page, the Filing Lister returns at most as many
tuples as the table has rows (in document order, since `filterMap` preserves
order); every returned title contains the filter substring under
case-sensitive substring matching; the empty filter returns exactly the
parseable rows (`parseRow`); and a row missing an expected column is skipped
silently (its parse is `none`). -/
theorem filing_lister_props (rows : List (List DocCell)) (filt : List Char) :
    (get_soup_contents rows filt).length ≤ rows.length ∧
    (∀ ref ∈ get_soup_contents rows filt, hasSubstr filt ref.title = true) ∧
    get_soup_contents rows [] = rows.filterMap parseRow ∧
    (∀ row : List DocCell, row.length < 4 → processRow filt row = none) := by
  refine ⟨List.length_filterMap_le _ _, ?_, ?_, fun row h => processRow_short row h⟩
  · intro ref href
    rcases List.mem_filterMap.mp href with ⟨row, _, hp⟩
    exact processRow_some_title hp
  · show rows.filterMap (processRow []) = rows.filterMap parseRow
    rw [funext processRow_nil_filt]

/-- C6 witness: the lister properties instantiated at a concrete table with a
matching four-column row and a malformed one-column row. -/
theorem filing_lister_props_witness :
    hasSubstr exFiltC6 exRefC6.title = true ∧
    processRow exFiltC6 [⟨"13F-HR".toList, none⟩] = none :=
  ⟨(filing_lister_props exRowsC6 exFiltC6).2.1 exRefC6 (by decide),
   (filing_lister_props exRowsC6 exFiltC6).2.2.2 _ (by decide)⟩

/-- C7: for every input text, the written file splits at newlines into
exactly one line per record (plus the empty trailing piece after the final
newline), and no written line contains a literal newline character. -/
theorem writer_one_line_per_record (text : List Char) :
    splitChar '\n' (convert_to_tsv text)
      = (res_lines text).map serializeRecord ++ [[]] ∧
    (∀ r ∈ res_lines text, '\n' ∉ serializeRecord r) := by
  have hfree : ∀ r ∈ res_lines text, '\n' ∉ serializeRecord r := by
    intro r hr
    rw [res_lines_eq_map] at hr
    rcases List.mem_map.mp hr with ⟨line, hline, rfl⟩
    exact no_newline_processLine (no_newline_in_line hline)
  exact ⟨splitChar_fileContent _ hfree, hfree⟩

/-- C7 witness: the line structure of the file written for a concrete
two-line input, and the newline-freeness of its first written line. -/
theorem writer_one_line_per_record_witness :
    splitChar '\n' (convert_to_tsv exTextC7)
      = (res_lines exTextC7).map serializeRecord ++ [[]] ∧
    '\n' ∉ serializeRecord (processLine ("AAPL INC 100 200".toList)) :=
  ⟨(writer_one_line_per_record exTextC7).1,
   (writer_one_line_per_record exTextC7).2 _ (by decide)⟩

/-- C8: for every input text, the Record Normalizer emits exactly one record
per input line, in order (the i-th record is the processed i-th line), and a
blank line (one consisting only of spaces, including the empty line) yields
the degenerate record whose only field is the empty name. -/
theorem normalizer_one_record_per_line (text : List Char) :
    (res_lines text).length = (convertLines text).length ∧
    (∀ i, i < (convertLines text).length →
      (res_lines text).getD i [] = processLine ((convertLines text).getD i [])) ∧
    (∀ line : List Char, (∀ c ∈ line, c = ' ') → processLine line = [[]]) := by
  refine ⟨?_, ?_, ?_⟩
  · rw [res_lines_eq_map]
    exact List.length_map _ _
  · intro i hi
    rw [res_lines_eq_map]
    exact getD_map_of_lt _ _ i hi [] []
  · intro line hline
    have hsp : ∀ c ∈ line, pySpace c = true := by
      intro c hc
      rw [hline c hc]
      decide
    have hT : splitWS line = [] := splitWS_all_space hsp
    have hcands : specNameCandidates line = [] := by
      refine List.filter_eq_nil_iff.mpr ?_
      intro t ht
      have ht' : t ∈ splitBy (fun c => c = ' ') line := (List.take_subset _ _) ht
      have hte : t = [] :=
        splitBy_all_empty (fun c hc => by simp [hline c hc]) t ht'
      simp [hte]
    rw [processLine_spec]
    simp [specRecord, specName, specSurvivors, specAllTokens, hcands, hT,
      joinWith]

/-- C8 witness: the pointwise record equation at the blank middle line of a
concrete three-line input, and the degenerate record of an all-space line. -/
theorem normalizer_one_record_per_line_witness :
    (res_lines exTextC8).getD 1 [] = processLine ((convertLines exTextC8).getD 1 []) ∧
    processLine [' '] = [[]] :=
  ⟨(normalizer_one_record_per_line exTextC8).2.1 1 (by decide),
   (normalizer_one_record_per_line exTextC8).2.2 [' '] (by decide)⟩
